import Mathlib

/-!
# Verification of the waveform parsing/indexing/query/sampling core

Shallow embedding of the core subsystem of the `hdl-wave-ai` repository:

* the VCD dump parser `parseVcd` (file `src/waveform/vcd.ts`),
* the transition index `WaveformIndex` (same file),
* the live sampler `collectTransitions` and the range-resolution block of
  `buildWaveformContext` (file `src/vaporview/api.ts`).

JavaScript strings are modelled as `List Char`; the handful of JS string
operations the code uses (`trim`, `startsWith`, `includes`, `indexOf`,
`slice`, `split`, `padStart`) are given direct executable models below.
JS `number` values flowing through this code are integer ticks and are
modelled as `Int`; the one non-number value that can arise, `NaN` from
`parseInt` on a malformed timestamp, is modelled by `Option Int` with
`none` playing the role of `NaN` (every comparison against it is false,
as in JS).  `Map`/`Set`/plain-object records are modelled as association
lists with JS `Map.set` (replace) semantics, preserving insertion order.
Loops whose index advances through the input are written with an explicit
fuel argument that is always instantiated large enough to cover the
worst case (one unit of fuel per consumed line / iteration), keeping all
definitions structurally recursive and hence evaluable by `decide`.
-/

namespace HdlWave

/-! ## JS string primitives over `List Char` -/

/-- JS whitespace test (ASCII approximation used by `trim` / `parseInt`). -/
def isWs (c : Char) : Bool := c.isWhitespace

/-- JS `String.prototype.trim`. -/
def jsTrim (cs : List Char) : List Char :=
  ((cs.dropWhile isWs).reverse.dropWhile isWs).reverse

/-- JS `startsWith pat` on a string. -/
def startsWithL (cs pat : List Char) : Bool :=
  pat.isPrefixOf cs

/-- JS `includes pat` (substring containment at any position). -/
def containsSub (cs pat : List Char) : Bool :=
  if pat.isPrefixOf cs then true
  else
    match cs with
    | [] => false
    | _ :: t => containsSub t pat

/-- JS `split('\n')`: keeps empty pieces, including a trailing one. -/
def splitLinesL : List Char → List (List Char)
  | [] => [[]]
  | c :: t =>
    if c = '\n' then [] :: splitLinesL t
    else
      match splitLinesL t with
      | [] => [[c]]
      | h :: r => (c :: h) :: r

/-- Split the whole content string into its lines. -/
def splitLines (content : String) : List (List Char) :=
  splitLinesL content.data

/-- JS `indexOf ' '` : position of the first space, `none` for JS `-1`. -/
def idxOfSpace (cs : List Char) : Option Nat :=
  cs.findIdx? (· = ' ')

/-- `\w` of JS regexes: `[A-Za-z0-9_]`. -/
def isWordChar (c : Char) : Bool :=
  ('a' ≤ c ∧ c ≤ 'z') ∨ ('A' ≤ c ∧ c ≤ 'Z') ∨ ('0' ≤ c ∧ c ≤ '9') ∨ c = '_'

/-- Digit value of an ASCII decimal digit. -/
def digitVal (c : Char) : Nat := c.toNat - 48

/-- Decimal digits to a natural number. -/
def digitsToNat (ds : List Char) : Nat :=
  ds.foldl (fun a c => 10 * a + digitVal c) 0

/-- JS `parseInt(s, 10)`: skip leading whitespace, optional sign, maximal
digit run; `none` models `NaN` (no digits at all). -/
def jsParseInt (cs : List Char) : Option Int :=
  let cs := cs.dropWhile isWs
  let signed : Bool × List Char :=
    match cs with
    | '-' :: r => (true, r)
    | '+' :: r => (false, r)
    | r => (false, r)
  let ds := signed.2.takeWhile Char.isDigit
  if ds.isEmpty then none
  else some (if signed.1 then -(digitsToNat ds : Int) else (digitsToNat ds : Int))

/-- Binary digits to a natural number: JS `parseInt(bits, 2)` on a string
already checked to match `^[01]+$`.  (JS computes this in floating point
and loses precision past 2^53; no claim depends on the hex annotation's
numeric value, so the exact integer stands in for it.) -/
def binToNat (ds : List Char) : Nat :=
  ds.foldl (fun a c => 2 * a + (if c = '1' then 1 else 0)) 0

/-- Upper-case hex digit. -/
def hexDigit (n : Nat) : Char :=
  if n < 10 then Char.ofNat (48 + n) else Char.ofNat (55 + n)

/-- Fuel-driven core of `natToHex` (fuel `n` is ample: the value shrinks
by a factor of 16 every step). -/
def natToHexAux : Nat → Nat → List Char → List Char
  | 0, n, acc => hexDigit (n % 16) :: acc
  | fuel + 1, n, acc =>
    if n < 16 then hexDigit n :: acc
    else natToHexAux fuel (n / 16) (hexDigit (n % 16) :: acc)

/-- JS `n.toString(16).toUpperCase()` for a natural number. -/
def natToHex (n : Nat) : List Char :=
  natToHexAux n n []

/-- `^[01]+$` : nonempty and purely binary. -/
def isBinaryStr (cs : List Char) : Bool :=
  !cs.isEmpty && cs.all (fun c => c = '0' ∨ c = '1')

/-- JS `padStart(width, pad)`. -/
def padStartL (cs : List Char) (width : Nat) (pad : Char) : List Char :=
  List.replicate (width - cs.length) pad ++ cs

/-! ## Data model -/

/-- One observed signal change.  `time` is `none` when the emitting
timestamp record parsed to `NaN`. -/
structure SignalTransition where
  time : Option Int
  signal : String
  value : String
deriving DecidableEq, Repr, Inhabited

/-- A `$var` declaration from the VCD header. -/
structure VcdSignal where
  id : List Char
  path : String
  width : Nat
deriving DecidableEq, Repr, Inhabited

/-- Result shape of `parseVcd`. -/
structure VcdParseResult where
  signals : List String
  transitions : List SignalTransition
  endTime : Int
  timescale : String
deriving DecidableEq, Repr, Inhabited

/-! ## Association lists (JS `Map` / plain-object records).
`alSet` replaces in place on an existing key (JS `Map.set`), otherwise
appends, preserving insertion order. -/

def alGet {α : Type} (m : List (List Char × α)) (k : List Char) : Option α :=
  match m with
  | [] => none
  | (k', v) :: t => if k = k' then some v else alGet t k

def alSet {α : Type} (m : List (List Char × α)) (k : List Char) (v : α) :
    List (List Char × α) :=
  match m with
  | [] => [(k, v)]
  | (k', v') :: t => if k = k' then (k', v) :: t else (k', v') :: alSet t k v

/-- Same, keyed by `String` (the parser keys `lastValues` by signal path). -/
def alGetS {α : Type} (m : List (String × α)) (k : String) : Option α :=
  match m with
  | [] => none
  | (k', v) :: t => if k = k' then some v else alGetS t k

def alSetS {α : Type} (m : List (String × α)) (k : String) (v : α) :
    List (String × α) :=
  match m with
  | [] => [(k, v)]
  | (k', v') :: t => if k = k' then (k', v) :: t else (k', v') :: alSetS t k v

/-- JS `Set.add` (insertion order, no duplicates). -/
def setAdd (s : List String) (x : String) : List String :=
  if x ∈ s then s else s ++ [x]

/-! ## `formatBits` (vcd.ts lines 40-49) -/

/-- Format a binary/x/z string with hex annotation for multi-bit signals.
Mirrors `formatBits` in vcd.ts: pad to declared width (with `'x'` when the
leading raw character is `x`/`X`, else `'0'`), and append the hex value
when the padded string is purely binary. -/
def formatBits (bits : List Char) (width : Nat) : String :=
  if width ≤ 1 then String.mk bits
  else
    let padChar := if bits.head? = some 'x' ∨ bits.head? = some 'X' then 'x' else '0'
    let padded := padStartL bits width padChar
    if isBinaryStr padded then
      String.mk (padded ++ (" (0x".data ++ natToHex (binToNat padded) ++ [')']))
    else String.mk padded

/-! ## Dump parser, header phase (vcd.ts lines 51-128) -/

/-- `collectUntilEnd` (vcd.ts lines 66-72): accumulate trimmed lines until
the running text contains `$end`, then cut the text at the first `$end`
that sits on a `\b` word boundary (the `replace(/\$end\b.*/, '')`) and
trim.  Returns the stripped text and the unconsumed lines. -/
def collectUntilEnd (text : List Char) (ls : List (List Char)) :
    List Char × List (List Char) :=
  if containsSub text "$end".data then (text, ls)
  else
    match ls with
    | [] => (text, [])
    | l :: rest => collectUntilEnd (text ++ ' ' :: jsTrim l) rest

/-- The `replace(/\$end\b.*/, '')` of `collectUntilEnd`: truncate at the
first occurrence of `$end` followed by a non-word character or the end of
the string (regex `\b`). -/
def stripAtEndTok : List Char → List Char
  | [] => []
  | c :: cs =>
    if c = '$' ∧ startsWithL cs "end".data ∧
        (match cs.drop 3 with | [] => true | d :: _ => ¬ isWordChar d : Bool) then []
    else c :: stripAtEndTok cs

/-- Full body extraction used by the header: accumulate, strip, trim. -/
def collectBody (text : List Char) (ls : List (List Char)) :
    List Char × List (List Char) :=
  let r := collectUntilEnd text ls
  (jsTrim (stripAtEndTok r.1), r.2)

/-- Skip of an unrecognized `$`-block (vcd.ts lines 116-118 / 124-127):
advance past lines until one whose *raw* text contains `$end`, consuming
that line too. -/
def skipPastEnd : List (List Char) → List (List Char)
  | [] => []
  | l :: rest => if containsSub l "$end".data then rest else skipPastEnd rest

/-- Whitespace tokenization.  The two header regexes
`/\$scope\s+\w+\s+(\S+)/` and `/\$var\s+\S+\s+(\d+)\s+(\S+)\s+(\S+)/` are
anchored in practice at the start of the collected text (the line was
checked with `startsWith`), and `\s+`/`\S+` delimit exactly the
whitespace-separated tokens, so both are modelled over this token list. -/
def wsTokens (cs : List Char) : List (List Char) :=
  (cs.splitOnP isWs).filter (fun t => ¬ t.isEmpty)

/-- `name.replace(/\[.*\]$/, '')` (vcd.ts line 106): when the name ends in
`]` and an earlier `[` exists, drop everything from the first `[`. -/
def stripBracketSuffix (cs : List Char) : List Char :=
  if cs.getLast? = some ']' ∧ '[' ∈ cs.dropLast then
    cs.takeWhile (· ≠ '[')
  else cs

/-- Header-phase state: declared signals (id-keyed, later declaration
wins), the scope stack, and the timescale text. -/
structure HeaderState where
  defs : List (List Char × VcdSignal)
  scopeStack : List String
  timescale : String
deriving Repr, Inhabited

def initHeader : HeaderState :=
  { defs := [], scopeStack := [], timescale := "1 ns" }

/-- One pass of the header `while` loop (vcd.ts lines 75-128), written
with fuel (each iteration consumes at least one line, so fuel
`lines.length + 1` always suffices).  Returns the header state and the
lines left for the data section. -/
def headerLoop : Nat → HeaderState → List (List Char) →
    HeaderState × List (List Char)
  | 0, hs, ls => (hs, ls)
  | fuel + 1, hs, ls =>
    match ls with
    | [] => (hs, [])
    | raw :: rest =>
      let line := jsTrim raw
      if line.isEmpty then headerLoop fuel hs rest
      else if startsWithL line "$timescale".data then
        let r := collectBody (jsTrim (line.drop "$timescale".length)) rest
        headerLoop fuel
          { hs with timescale := if (jsTrim r.1).isEmpty then hs.timescale
                                 else String.mk (jsTrim r.1) } r.2
      else if startsWithL line "$scope".data then
        let r := collectBody line rest
        match wsTokens r.1 with
        | t0 :: t1 :: t2 :: _ =>
          if t0 = "$scope".data ∧ t1.all isWordChar then
            headerLoop fuel { hs with scopeStack := hs.scopeStack ++ [String.mk t2] } r.2
          else headerLoop fuel hs r.2
        | _ => headerLoop fuel hs r.2
      else if startsWithL line "$upscope".data then
        headerLoop fuel { hs with scopeStack := hs.scopeStack.dropLast } rest
      else if startsWithL line "$var".data then
        let r := collectBody line rest
        match wsTokens r.1 with
        | t0 :: _t1 :: t2 :: t3 :: t4 :: _ =>
          if t0 = "$var".data ∧ ¬ t2.isEmpty ∧ t2.all Char.isDigit then
            let width := digitsToNat t2
            let name := stripBracketSuffix t4
            let path := String.intercalate "."
              (hs.scopeStack ++ [String.mk name])
            headerLoop fuel
              { hs with defs := alSet hs.defs t3 ⟨t3, path, width⟩ } r.2
          else headerLoop fuel hs r.2
        | _ => headerLoop fuel hs r.2
      else if startsWithL line "$enddefinitions".data then
        -- `line` always contains `$end` here (it is a a substring of
        -- `$enddefinitions`), so the source's inner skip loop is dead;
        -- both branches are kept for fidelity.
        if containsSub line "$end".data then (hs, rest)
        else (hs, skipPastEnd rest)
      else if startsWithL line ['$'] ∧ ¬ containsSub line "$end".data then
        headerLoop fuel hs (skipPastEnd rest)
      else headerLoop fuel hs rest

/-! ## Dump parser, data phase (vcd.ts lines 130-215) -/

/-- Data-phase state.  `currentTime = none` models a `NaN` watermark. -/
structure DataState where
  currentTime : Option Int
  endTime : Int
  transitions : List SignalTransition
  lastValues : List (String × String)
  sigsWith : List String
  skipToEnd : Bool
deriving Repr, Inhabited

def initData : DataState :=
  { currentTime := some 0, endTime := 0, transitions := [],
    lastValues := [], sigsWith := [], skipToEnd := false }

/-- The shared emit-if-changed block (vcd.ts lines 165-169 / 183-187 /
199-203): push a transition and update the last-value map and the
changed-signal set only when the formatted value differs from the last
recorded one. -/
def emitChange (s : DataState) (path val : String) : DataState :=
  if alGetS s.lastValues path = some val then s
  else
    { s with
      transitions := s.transitions ++ [⟨s.currentTime, path, val⟩],
      lastValues := alSetS s.lastValues path val,
      sigsWith := setAdd s.sigsWith path }

/-- JS `currentTime > endTime` with a possibly-`NaN` left side. -/
def bumpEnd (t : Option Int) (endTime : Int) : Int :=
  match t with
  | some v => if v > endTime then v else endTime
  | none => endTime

/-- One iteration of the data `while` loop (vcd.ts lines 133-207): the
loop consumes exactly one line per iteration, so the whole data section
is a left fold of this step. -/
def dataStep (defs : List (List Char × VcdSignal)) (s : DataState)
    (raw : List Char) : DataState :=
  let line := jsTrim raw
  if line.isEmpty then s
  else if startsWithL line ['$'] then
    { s with skipToEnd := !(containsSub line "$end".data) }
  else if s.skipToEnd then s
  else if startsWithL line ['#'] then
    let t := jsParseInt (line.drop 1)
    { s with currentTime := t, endTime := bumpEnd t s.endTime }
  else if line.head? = some 'b' ∨ line.head? = some 'B' then
    match idxOfSpace line with
    | some sp =>
      if sp > 0 then
        let bits := (line.take sp).drop 1
        let id := jsTrim (line.drop (sp + 1))
        match alGet defs id with
        | some sig => emitChange s sig.path (formatBits bits sig.width)
        | none => s
      else s
    | none => s
  else if line.head? = some 'r' ∨ line.head? = some 'R' then
    match idxOfSpace line with
    | some sp =>
      if sp > 0 then
        let val := (line.take sp).drop 1
        let id := jsTrim (line.drop (sp + 1))
        match alGet defs id with
        | some sig => emitChange s sig.path (String.mk val)
        | none => s
      else s
    | none => s
  else if line.length ≥ 2 ∧
      (line.head? = some '0' ∨ line.head? = some '1' ∨ line.head? = some 'x' ∨
       line.head? = some 'X' ∨ line.head? = some 'z' ∨ line.head? = some 'Z') then
    let val := String.mk [(line.headD ' ').toLower]
    let id := jsTrim (line.drop 1)
    match alGet defs id with
    | some sig => emitChange s sig.path val
    | none => s
  else s

/-- The header phase of `parseVcd` on a content string: header state plus
the unconsumed (data-section) lines. -/
def parseVcdHeader (content : String) : HeaderState × List (List Char) :=
  let lines := splitLines content
  headerLoop (lines.length + 1) initHeader lines

/-- `parseVcd` (vcd.ts lines 51-215). -/
def parseVcd (content : String) : VcdParseResult :=
  let h := parseVcdHeader content
  let final := h.2.foldl (dataStep h.1.defs) initData
  { signals := final.sigsWith, transitions := final.transitions,
    endTime := final.endTime, timescale := h.1.timescale }

/-! ## Transition index (vcd.ts lines 221-276) -/

/-- JS `t.time >= tStart && t.time <= tEnd` (false on a `NaN` time). -/
def timeInRange (t : Option Int) (tStart tEnd : Int) : Bool :=
  match t with
  | some v => tStart ≤ v ∧ v ≤ tEnd
  | none => false

/-- JS `ts[mid].time <= time` (false on a `NaN` time). -/
def timeLE (t : Option Int) (q : Int) : Bool :=
  match t with
  | some v => v ≤ q
  | none => false

/-- The constructor's grouping fold (vcd.ts lines 243-248): append each
transition to its signal's bucket, creating the bucket on first sight. -/
def buildBuckets (ts : List SignalTransition) :
    List (String × List SignalTransition) :=
  ts.foldl (fun m t => alSetS m t.signal ((alGetS m t.signal).getD [] ++ [t])) []

/-- The waveform index: signal catalog, transition log, metadata.  The
`bySignal` map is derived from the transition log exactly as the
constructor builds it. -/
structure WaveformIndex where
  signals : List String
  transitions : List SignalTransition
  endTime : Int
deriving Repr, Inhabited

/-- `this.bySignal.get(signal) ?? []`. -/
def WaveformIndex.bucket (w : WaveformIndex) (signal : String) :
    List SignalTransition :=
  (alGetS (buildBuckets w.transitions) signal).getD []

/-- `Math.round(i * (len / cap))` for the stride re-sampling, on exact
rationals: `round(x) = floor(x + 1/2)`, all quantities nonnegative.  (JS
computes `len / cap` in floating point; the exact value stands in.) -/
def strideIdx (i len cap : Nat) : Nat :=
  (2 * i * len + cap) / (2 * cap)

/-- `queryTransitions` (vcd.ts lines 258-264). -/
def WaveformIndex.queryTransitions (w : WaveformIndex) (signal : String)
    (tStart tEnd : Int) (cap : Nat) : List SignalTransition :=
  let filtered := (w.bucket signal).filter (fun t => timeInRange t.time tStart tEnd)
  if filtered.length ≤ cap then filtered
  else (List.range cap).map
    (fun i => filtered.getD (strideIdx i filtered.length cap) default)

/-- The binary-search loop of `getValueAt` (vcd.ts lines 268-273), with
fuel (the span `hi - lo` at least halves every iteration, so fuel
`ts.length + 1` always suffices).  `lo` stays a natural number; `hi`
starts at `length - 1`, which is `-1` on an empty bucket, hence `Int`.
`mid = (lo + hi) >> 1` on the in-range nonnegative indices is the
natural-number midpoint. -/
def gvaLoop (ts : List SignalTransition) (q : Int) :
    Nat → Nat → Int → String → String
  | 0, _, _, res => res
  | fuel + 1, lo, hi, res =>
    if (lo : Int) ≤ hi then
      let mid : Nat := (lo + hi.toNat) / 2
      let tr := ts.getD mid default
      if timeLE tr.time q then gvaLoop ts q fuel (mid + 1) hi tr.value
      else gvaLoop ts q fuel lo ((mid : Int) - 1) res
    else res

/-- `getValueAt` (vcd.ts lines 266-275). -/
def WaveformIndex.getValueAt (w : WaveformIndex) (signal : String)
    (time : Int) : String :=
  let ts := w.bucket signal
  gvaLoop ts time (ts.length + 1) 0 ((ts.length : Int) - 1) "x"

/-! ## Live sampler (api.ts lines 115-180) -/

/-- Decoded form of the `entry.value` string of a poll response:
`JSON.parse` yielded an array of (stringified) elements, a non-array
value, or threw (`unparsed`, the raw text is used as-is).  This models
the `try { parsed = JSON.parse(...) } catch` block at the boundary. -/
inductive PolledValue where
  | arr : List String → PolledValue
  | scalar : String → PolledValue
  | unparsed : String → PolledValue
deriving DecidableEq, Repr

/-- One element of a poll response. -/
structure PollEntry where
  instancePath : String
  value : PolledValue
deriving DecidableEq, Repr

/-- `bits` of api.ts lines 159-165: `String(parsed[0])` when the decoded
value is an array (JS stringifies the missing element of an empty array
as `"undefined"`), otherwise the value text itself. -/
def bitsOf : PolledValue → String
  | .arr es => es.headD "undefined"
  | .scalar s => s
  | .unparsed s => s

/-- api.ts lines 167-169: hex-annotate a multi-bit purely-binary value. -/
def sampleFormat (bits : String) : String :=
  if isBinaryStr bits.data ∧ bits.data.length > 1 then
    String.mk (bits.data ++ (" (0x".data ++ natToHex (binToNat bits.data) ++ [')']))
  else bits

/-- `s.replace(/\[[\d:]+\]$/, '')` (api.ts line 130): drop a trailing
bracketed run of digits/colons — the earliest `[` whose bracketed content
is nonempty, all digits or colons, and closed exactly at the end. -/
def stripBitRange (s : String) : String :=
  String.mk (stripBitRangeL s.data)
where
  /-- Scan for the leftmost position where the regex matches up to the
  end of the string. -/
  stripBitRangeL : List Char → List Char
    | [] => []
    | c :: cs =>
      if c = '[' ∧ ¬ cs.dropLast.isEmpty ∧
          cs.dropLast.all (fun d => d.isDigit ∨ d = ':') ∧
          cs.getLast? = some ']' then []
      else c :: stripBitRangeL cs

/-- `MAX_SAMPLE_ITERATIONS` (api.ts line 115). -/
def MAX_SAMPLE_ITERATIONS : Nat := 2000

/-- `Math.ceil(a / b)` for integer `a` and positive integer `b`. -/
def ceilDivJS (a b : Int) : Int :=
  -((-a) / b)

/-- The step-capping computation (api.ts lines 134-137). -/
def effectiveStep (startTime endTime stepSize : Int) : Int :=
  let range := endTime - startTime
  if 0 < range ∧ (MAX_SAMPLE_ITERATIONS : Int) < ceilDivJS range stepSize then
    ceilDivJS range (MAX_SAMPLE_ITERATIONS : Int)
  else stepSize

/-- The times visited by `for (let time = startTime; time <= endTime;
time += step)`, with fuel (`(endTime + 1 - startTime).toNat` iterations
always suffice for a positive step; for a non-positive step the JS loop
either exits at once or never terminates — the model returns `[]`, and
every claim below constrains the step to be positive). -/
def iterTimesAux (step endT : Int) : Nat → Int → List Int
  | 0, _ => []
  | fuel + 1, start =>
    if 0 < step ∧ start ≤ endT then start :: iterTimesAux step endT fuel (start + step)
    else []

def iterTimes (start endT step : Int) : List Int :=
  iterTimesAux step endT (endT + 1 - start).toNat start

/-- Sampler state threaded through the polling loop: the growing
transition list and the last-value record. -/
structure SampleState where
  transitions : List SignalTransition
  lastValues : List (String × String)
deriving Repr, Inhabited

/-- The per-entry body (api.ts lines 156-175): decode, hex-annotate,
emit if changed.  First observation of a signal always emits (the JS
record lookup yields `undefined`, which differs from every string). -/
def sampleEntry (time : Int) (s : SampleState) (entry : PollEntry) :
    SampleState :=
  let strValue := sampleFormat (bitsOf entry.value)
  if alGetS s.lastValues entry.instancePath = some strValue then s
  else
    { transitions := s.transitions ++ [⟨some time, entry.instancePath, strValue⟩],
      lastValues := alSetS s.lastValues entry.instancePath strValue }

/-- One polling iteration (api.ts lines 144-176): a `none`/non-array
response is skipped (`continue`), otherwise every entry is processed. -/
def samplePoll (query : Int → List String → Option (List PollEntry))
    (queryPaths : List String) (s : SampleState) (time : Int) : SampleState :=
  match query time queryPaths with
  | none => s
  | some raw => raw.foldl (sampleEntry time) s

/-- `collectTransitions` (api.ts lines 117-180).  The external
`waveformViewer.getValuesAtTime` round-trip is the oracle `query`;
`none` models a missing / non-array response. -/
def collectTransitions (query : Int → List String → Option (List PollEntry))
    (signals : List String) (startTime endTime stepSize : Int) :
    List SignalTransition :=
  let queryPaths := signals.map stripBitRange
  let step := effectiveStep startTime endTime stepSize
  ((iterTimes startTime endTime step).foldl
    (samplePoll query queryPaths) ⟨[], []⟩).transitions

/-! ## Range resolver (api.ts lines 203-218) -/

/-- The viewer state consulted by `buildWaveformContext`; each field may
be absent (`null`/`undefined`). -/
structure ViewerState where
  markerTime : Option Int
  altMarkerTime : Option Int
  timeEnd : Option Int
  maxTime : Option Int
  totalTime : Option Int
deriving DecidableEq, Repr

/-- `a ?? b` on optional fields of a possibly-absent state. -/
def opt2 {α : Type} (a b : Option α) : Option α :=
  match a with
  | some x => some x
  | none => b

/-- The marker-resolution block of `buildWaveformContext` (api.ts lines
211-218), producing the normalized `(resolvedStart, resolvedEnd)`
window from the optional viewer state and the caller's default range. -/
def resolveRange (state : Option ViewerState) (startTime endTime : Int) :
    Int × Int :=
  let vcdEnd := opt2 (state.bind (·.timeEnd))
    (opt2 (state.bind (·.maxTime)) (state.bind (·.totalTime)))
  let markersSet := (state.bind (·.markerTime)).isSome ∨
    (state.bind (·.altMarkerTime)).isSome
  let t0 := (opt2 (state.bind (·.altMarkerTime)) (state.bind (·.markerTime))).getD startTime
  let t1 := (state.bind (·.markerTime)).getD
    (if markersSet then endTime else vcdEnd.getD endTime)
  (min t0 t1, max t0 t1)

/-! ## Predicates and fixtures used by the theorems -/

/-- The timestamp records of a line list: for every line whose trimmed
text starts with `#`, the `parseInt` of the rest (in order of
appearance; `none` is a `NaN` timestamp). -/
def stampsOf (ls : List (List Char)) : List (Option Int) :=
  ls.filterMap (fun raw =>
    if startsWithL (jsTrim raw) ['#'] then
      some (jsParseInt ((jsTrim raw).drop 1))
    else none)

/-- Well-formed timestamps: all numeric, nonnegative, nondecreasing in
order of appearance. -/
def GoodStamps (ls : List (List Char)) : Prop :=
  ∃ vs : List Int, stampsOf ls = vs.map some ∧
    (∀ v ∈ vs, 0 ≤ v) ∧ vs.Pairwise (· ≤ ·)

/-- A bucket sorted non-decreasing by (numeric) time. -/
def SortedBucket (ts : List SignalTransition) : Prop :=
  ∃ vs : List Int, ts.map (·.time) = vs.map some ∧ vs.Pairwise (· ≤ ·)

/-- The last transition of the list whose time is at or before `q`. -/
def lastAtOrBefore (ts : List SignalTransition) (q : Int) :
    Option SignalTransition :=
  (ts.filter (fun tr => timeLE tr.time q)).getLast?

/-- The per-signal bucket of a transition log, in emission order. -/
def sigBucket (ts : List SignalTransition) (sig : String) :
    List SignalTransition :=
  ts.filter (fun tr => tr.signal = sig)

/-- Transition-list order relation used for the per-signal monotonicity
invariant: whenever both times are numeric, the earlier-emitted one is
not larger. -/
def TimeMono (a b : SignalTransition) : Prop :=
  ∀ ta tb, a.time = some ta → b.time = some tb → ta ≤ tb

/-- A dump whose value-change record sits inside a `$dumpvars … $end`
wrapper (at time 0), followed by a plain record at time 5. -/
def dumpvarsContent : String :=
  "$var wire 1 ! a $end\n$enddefinitions $end\n#0\n$dumpvars\n0!\n$end\n#5\n1!"

/-- A dump with a negative timestamp record. -/
def negTimeContent : String :=
  "$var wire 1 ! a $end\n$enddefinitions $end\n#-5\n0!"

/-- A dump whose timestamps go backwards. -/
def backTimeContent : String :=
  "$var wire 1 ! a $end\n$enddefinitions $end\n#5\n0!\n#3\n1!"

/-- The `filtered` local of `queryTransitions`: the bucket restricted to
the queried time range. -/
def filteredRange (w : WaveformIndex) (sig : String) (tStart tEnd : Int) :
    List SignalTransition :=
  (w.bucket sig).filter (fun t => timeInRange t.time tStart tEnd)

/-- A small sorted index fixture used by witnesses. -/
def exIdx : WaveformIndex :=
  { signals := ["a", "b"],
    transitions := [⟨some 0, "a", "0"⟩, ⟨some 5, "a", "1"⟩,
                    ⟨some 10, "a", "0"⟩, ⟨some 15, "b", "1"⟩],
    endTime := 15 }


/-- C2 counterexample: with exactly one marker present (value 200) and
default range [0, 10000], the resolver yields (200, 200) when the
primary marker alone is set and (200, 10000) when the alternate marker
alone is set — in neither case the claimed [defaultStart, thatMarker] =
(0, 200). -/
theorem claim_C2_cex :
    resolveRange (some ⟨some 200, none, none, none, none⟩) 0 10000 = (200, 200) ∧
    resolveRange (some ⟨none, some 200, none, none, none⟩) 0 10000 = (200, 10000) ∧
    (200, 200) ≠ ((0 : Int), (200 : Int)) ∧
    (200, 10000) ≠ ((0 : Int), (200 : Int)) := by
  refine ⟨by decide, by decide, by decide, by decide⟩

/-- C2 (amended): range resolution yields one normalized window: both
markers present ⇒ [min, max] of the two; only the primary marker m ⇒
the degenerate window [m, m]; only the alternate marker a ⇒
[min(a, defaultEnd), max(a, defaultEnd)]; no marker ⇒
[min(defaultStart, e), max(defaultStart, e)] where e is the reported sim
end (timeEnd ?? maxTime ?? totalTime) if available, else defaultEnd. -/
theorem claim_C2 :
    (∀ m a te mt tt s e, resolveRange (some ⟨some m, some a, te, mt, tt⟩) s e
      = (min a m, max a m)) ∧
    (∀ m te mt tt s e, resolveRange (some ⟨some m, none, te, mt, tt⟩) s e
      = (m, m)) ∧
    (∀ a te mt tt s e, resolveRange (some ⟨none, some a, te, mt, tt⟩) s e
      = (min a e, max a e)) ∧
    (∀ te mt tt s e, resolveRange (some ⟨none, none, te, mt, tt⟩) s e
      = (min s ((opt2 te (opt2 mt tt)).getD e),
         max s ((opt2 te (opt2 mt tt)).getD e))) := by
  refine ⟨?_, ?_, ?_, ?_⟩ <;> intros <;>
    simp [resolveRange, opt2]

/-- Closed form for the number of iterations of the sampling loop
`for (t = start; t <= endT; t += step)` for a positive step. -/
theorem iterTimesAux_length (step endT : Int) (hstep : 0 < step) :
    ∀ fuel (start : Int), (endT + 1 - start).toNat ≤ fuel →
      (iterTimesAux step endT fuel start).length =
        if start ≤ endT then ((endT - start).toNat / step.toNat) + 1 else 0 := by
  intro fuel
  induction fuel with
  | zero =>
    intro start hf
    simp only [iterTimesAux, List.length_nil]
    have : ¬ start ≤ endT := by omega
    simp [this]
  | succ n ih =>
    intro start hf
    by_cases hle : start ≤ endT
    · have hcond : 0 < step ∧ start ≤ endT := ⟨hstep, hle⟩
      simp only [iterTimesAux, if_pos hcond, List.length_cons]
      rw [ih (start + step) (by omega)]
      by_cases h2 : start + step ≤ endT
      · have hsplit : (endT - start).toNat = (endT - (start + step)).toNat + step.toNat := by
          omega
        rw [if_pos h2, hsplit, Nat.add_div_right _ (by omega : 0 < step.toNat)]
        simp [hle]
      · have hz : (endT - start).toNat / step.toNat = 0 :=
          Nat.div_eq_of_lt (by omega)
        rw [if_neg h2]
        simp [hle, hz]
    · have hcond : ¬ (0 < step ∧ start ≤ endT) := by tauto
      simp [iterTimesAux, hcond, hle]

theorem iterTimes_length (start endT step : Int) (hstep : 0 < step) :
    (iterTimes start endT step).length =
      if start ≤ endT then ((endT - start).toNat / step.toNat) + 1 else 0 :=
  iterTimesAux_length step endT hstep _ start (by omega)

/-- C5: the code violates the iteration ceiling by one.  At
startTime 0, endTime 4000, stepSize 1, capping triggers
(ceil(4000/1) = 4000 > 2000) and coarsens the step to
ceil(4000/2000) = 2, yet the loop `for (t = 0; t <= 4000; t += 2)` runs
2001 iterations — contradicting the claim and the code's own log line
"capped at 2000 iterations". -/
theorem claim_C5 :
    effectiveStep 0 4000 1 = 2 ∧
    (iterTimes 0 4000 (effectiveStep 0 4000 1)).length = 2001 ∧
    MAX_SAMPLE_ITERATIONS < (iterTimes 0 4000 (effectiveStep 0 4000 1)).length := by
  have hstep : effectiveStep 0 4000 1 = 2 := by decide
  have hlen : (iterTimes 0 4000 (effectiveStep 0 4000 1)).length = 2001 := by
    rw [hstep, iterTimes_length 0 4000 2 (by decide)]
    simp only [show ((4000 : Int) - 0) = 4000 by norm_num]
    decide
  exact ⟨hstep, hlen, by rw [hlen]; decide⟩
/-- C4 counterexample: an externally reported `[previous, current]` pair
`["0", "1"]` is recorded with value "0" — the FIRST element of the
decoded array (the previous value), not the last element "1" the claim
requires. -/
theorem claim_C4_cex :
    collectTransitions (fun _ _ => some [⟨"a", .arr ["0", "1"]⟩]) ["a"] 0 0 1
      = [⟨some 0, "a", "0"⟩] ∧ ("0" : String) ≠ "1" := by
  refine ⟨by decide, by decide⟩

/-- C4 (amended): when a reported value decodes to a nonempty array, the
sampler takes the first element (`String(parsed[0])`) as the signal's
current value for that step; the remaining elements are ignored. -/
theorem claim_C4 (prev cur : String) :
    collectTransitions (fun _ _ => some [⟨"a", .arr [prev, cur]⟩]) ["a"] 0 0 1
      = [⟨some 0, "a", sampleFormat prev⟩] := by
  simp [collectTransitions, effectiveStep, ceilDivJS, iterTimes, iterTimesAux,
    samplePoll, sampleEntry, bitsOf, alGetS, alSetS, MAX_SAMPLE_ITERATIONS]

/-- C3 counterexample: neither streak halts anything.  With responses
empty at every step except t = 10, the sampler still polls through
t = endTime = 10 after ten consecutive empty polls and records the value
found there; with an unchanged value at t = 0..9 and a change at t = 10,
nine consecutive no-change polls after an informative sample likewise do
not halt collection, and the change at t = 10 is recorded. -/
theorem claim_C3_cex :
    collectTransitions
      (fun t _ => if t = 10 then some [⟨"a", .scalar "1"⟩] else some [])
      ["a"] 0 10 1 = [⟨some 10, "a", "1"⟩] ∧
    collectTransitions
      (fun t _ => some [⟨"a", .scalar (if t = 10 then "1" else "0")⟩])
      ["a"] 0 10 1 = [⟨some 0, "a", "0"⟩, ⟨some 10, "a", "1"⟩] := by
  refine ⟨by decide, by decide⟩

/-- C3 (amended): the sampling loop has no early-exit heuristic: an
empty poll response leaves the collection state unchanged and collection
continues, so any run of consecutive empty polls — of any length — has
no effect on what the remaining polls collect; everything collected is
returned. -/
theorem claim_C3 (query : Int → List String → Option (List PollEntry))
    (qp : List String) (s : SampleState) (ts1 ts2 : List Int)
    (h : ∀ t ∈ ts1, query t qp = some []) :
    (ts1 ++ ts2).foldl (samplePoll query qp) s
      = ts2.foldl (samplePoll query qp) s := by
  induction ts1 generalizing s with
  | nil => simp
  | cons t rest ih =>
    have hstep : samplePoll query qp s t = s := by
      simp [samplePoll, h t (by simp)]
    simpa [hstep] using ih s (fun t' ht' => h t' (by simp [ht']))

/-- C3 witness: three consecutive empty polls leave the state unchanged
and do not stop the remaining polls from being processed. -/
theorem claim_C3_witness :
    ([0, 1, 2] ++ [3]).foldl
      (samplePoll (fun _ _ => some []) ["a"]) ⟨[], []⟩
      = [3].foldl (samplePoll (fun _ _ => some []) ["a"]) ⟨[], []⟩ :=
  claim_C3 (fun _ _ => some []) ["a"] ⟨[], []⟩ [0, 1, 2] [3]
    (fun _ _ => rfl)

/-- C1 counterexample: in `dumpvarsContent` the record `0!` for signal
`a` sits between `$dumpvars` and its `$end`; its formatted value "0"
differs from the signal's (absent) last recorded value, yet no
transition is emitted for it — the only transition is the one outside
the wrapper, at time 5.  Interior records are not processed. -/
theorem claim_C1_cex :
    (parseVcd dumpvarsContent).transitions = [⟨some 5, "a", "1"⟩] ∧
    ¬ ∃ tr ∈ (parseVcd dumpvarsContent).transitions, tr.time = some 0 := by
  refine ⟨by decide, by decide⟩

/-- C1 (amended): value-change records inside a bulk-dump command
wrapper are skipped, not processed: while the skip flag set by a command
token such as `$dumpvars` is active, every line that is not itself a
command token leaves the parser's data-phase state — transitions,
last-value map, catalog, watermark — entirely unchanged. -/
theorem claim_C1 (defs : List (List Char × VcdSignal)) (s : DataState)
    (ls : List (List Char)) (hskip : s.skipToEnd = true)
    (h : ∀ l ∈ ls, ¬ startsWithL (jsTrim l) ['$']) :
    ls.foldl (dataStep defs) s = s := by
  induction ls with
  | nil => rfl
  | cons l rest ih =>
    have hstep : dataStep defs s l = s := by
      by_cases he : (jsTrim l).isEmpty
      · simp [dataStep, he]
      · simp [dataStep, he, h l (by simp), hskip]
    simpa [hstep] using ih (fun l' hl' => h l' (by simp [hl']))

/-- C1 witness: with the skip flag set, the interior records `0!` and
`b1010 !` are ignored wholesale. -/
theorem claim_C1_witness :
    ["0!".data, "b1010 !".data].foldl (dataStep [])
      { initData with skipToEnd := true } = { initData with skipToEnd := true } :=
  claim_C1 [] { initData with skipToEnd := true } ["0!".data, "b1010 !".data]
    rfl (by decide)
/-- The stride index stays inside the filtered list. -/
theorem strideIdx_lt (i len cap : Nat) (hi : i < cap) (hlen : cap < len) :
    strideIdx i len cap < len := by
  have hcap : 0 < cap := by omega
  rw [strideIdx, Nat.div_lt_iff_lt_mul (by omega : 0 < 2 * cap)]
  have h1 : (i + 1) * len ≤ cap * len := Nat.mul_le_mul_right len hi
  nlinarith

/-- Members read off by `getD` at an in-range index belong to the list. -/
theorem getD_mem_of_lt {l : List SignalTransition} {i : Nat}
    (h : i < l.length) (d : SignalTransition) : l.getD i d ∈ l := by
  rw [List.getD_eq_getElem l d h]
  exact List.getElem_mem h

/-- C6: a range query returns only transitions with time in
[tStart, tEnd]; it never returns more than `cap` entries; when at most
`cap` transitions survive the filter they are all returned, in bucket
order; when more than `cap` survive, the result has exactly `cap`
entries, drawn from the filtered list at the even index stride
`round(i * len / cap)` — re-sampling, not prefix truncation. -/
theorem claim_C6 (w : WaveformIndex) (sig : String) (tStart tEnd : Int)
    (cap : Nat) :
    (∀ tr ∈ w.queryTransitions sig tStart tEnd cap,
        timeInRange tr.time tStart tEnd = true) ∧
    (w.queryTransitions sig tStart tEnd cap).length ≤ cap ∧
    ((filteredRange w sig tStart tEnd).length ≤ cap →
      w.queryTransitions sig tStart tEnd cap = filteredRange w sig tStart tEnd) ∧
    (cap < (filteredRange w sig tStart tEnd).length →
      (w.queryTransitions sig tStart tEnd cap).length = cap ∧
      ∀ i, i < cap →
        (w.queryTransitions sig tStart tEnd cap).getD i default
          = (filteredRange w sig tStart tEnd).getD
              (strideIdx i (filteredRange w sig tStart tEnd).length cap) default) := by
  by_cases hc : (filteredRange w sig tStart tEnd).length ≤ cap
  · have hres : w.queryTransitions sig tStart tEnd cap
        = filteredRange w sig tStart tEnd := by
      simp only [WaveformIndex.queryTransitions]
      rw [if_pos (show (((w.bucket sig).filter
        (fun t => timeInRange t.time tStart tEnd)).length ≤ cap) from hc)]
      rfl
    refine ⟨?_, ?_, fun _ => hres, fun hlt => absurd hlt (by omega)⟩
    · intro tr htr
      rw [hres] at htr
      exact (List.mem_filter.mp htr).2
    · rw [hres]; exact hc
  · push_neg at hc
    have hres : w.queryTransitions sig tStart tEnd cap
        = (List.range cap).map
            (fun i => (filteredRange w sig tStart tEnd).getD
              (strideIdx i (filteredRange w sig tStart tEnd).length cap) default) := by
      simp only [WaveformIndex.queryTransitions, filteredRange] at *
      rw [if_neg (by omega)]
    have hlen : (w.queryTransitions sig tStart tEnd cap).length = cap := by
      rw [hres]; simp
    refine ⟨?_, by omega, fun hle => absurd hle (by omega), fun _ => ⟨hlen, ?_⟩⟩
    · intro tr htr
      rw [hres] at htr
      obtain ⟨i, hi, rfl⟩ := List.mem_map.mp htr
      have hi' : i < cap := List.mem_range.mp hi
      have hmem : (filteredRange w sig tStart tEnd).getD
          (strideIdx i (filteredRange w sig tStart tEnd).length cap) default
          ∈ filteredRange w sig tStart tEnd :=
        getD_mem_of_lt (strideIdx_lt i _ cap hi' hc) default
      exact (List.mem_filter.mp hmem).2
    · intro i hi
      rw [hres, List.getD_eq_getElem _ default (by simpa using hi)]
      simp
/-- C6 witness: on the fixture, signal `a` has 3 transitions in [0, 15];
with cap 2 the query returns exactly 2 entries. -/
theorem claim_C6_witness :
    (exIdx.queryTransitions "a" 0 15 2).length = 2 :=
  ((claim_C6 exIdx "a" 0 15 2).2.2.2 (by decide)).1

/-- Sortedness makes the at-or-before predicate downward closed over the
bucket. -/
theorem sorted_downClosed (ts : List SignalTransition) (q : Int)
    (hs : SortedBucket ts) :
    ∀ i j : Nat, i < j → j < ts.length →
      timeLE (ts.getD j default).time q = true →
      timeLE (ts.getD i default).time q = true := by
  obtain ⟨vs, hmap, hpw⟩ := hs
  have hlen : ts.length = vs.length := by
    have := congrArg List.length hmap
    simpa using this
  intro i j hij hj hPj
  have hi : i < ts.length := by omega
  have htime : ∀ k, (hk : k < ts.length) →
      (ts.getD k default).time = some (vs.getD k 0) := by
    intro k hk
    have h2 : (ts.map (·.time))[k]? = (vs.map some)[k]? := by rw [hmap]
    rw [List.getElem?_map, List.getElem?_map,
      List.getElem?_eq_getElem hk,
      List.getElem?_eq_getElem (show k < vs.length by omega)] at h2
    simp only [Option.map_some] at h2
    rw [List.getD_eq_getElem ts default hk,
      List.getD_eq_getElem vs 0 (show k < vs.length by omega)]
    simpa using h2
  have hle : vs.getD i 0 ≤ vs.getD j 0 := by
    have := List.pairwise_iff_getElem.mp hpw i j (by omega) (by omega) hij
    rw [List.getD_eq_getElem vs 0 (by omega), List.getD_eq_getElem vs 0 (by omega)]
    exact this
  rw [htime j hj] at hPj
  rw [htime i hi]
  simp only [timeLE, decide_eq_true_eq] at hPj ⊢
  omega

/-- Under downward closure, an element satisfies the predicate exactly
when its index is below the satisfier count. -/
theorem downClosed_iff_lt_countP (ts : List SignalTransition)
    (P : SignalTransition → Bool)
    (dc : ∀ i j : Nat, i < j → j < ts.length →
      P (ts.getD j default) = true → P (ts.getD i default) = true) :
    ∀ j : Nat, j < ts.length →
      (P (ts.getD j default) = true ↔ j < ts.countP P) := by
  induction ts with
  | nil => intro j hj; simp at hj
  | cons a rest ih =>
    have dcr : ∀ i j : Nat, i < j → j < rest.length →
        P (rest.getD j default) = true → P (rest.getD i default) = true := by
      intro i j hij hj hP
      have := dc (i + 1) (j + 1) (by omega) (by simpa using Nat.succ_lt_succ hj)
      simpa using this hP
    intro j hj
    by_cases hPa : P a = true
    · cases j with
      | zero => simp [List.countP_cons, hPa]
      | succ j' =>
        have := ih dcr j' (by simpa using hj)
        simpa [List.countP_cons, hPa] using this
    · have hnone : ∀ k : Nat, k < rest.length → P (rest.getD k default) = false := by
        intro k hk
        by_contra hne
        have hPk : P (rest.getD k default) = true := by
          cases h : P (rest.getD k default) with
          | false => exact absurd h hne
          | true => rfl
        have := dc 0 (k + 1) (by omega) (by simpa using Nat.succ_lt_succ hk)
        simp only [List.getD_cons_succ, List.getD_cons_zero] at this
        exact hPa (this hPk)
      have hcnt : rest.countP P = 0 := by
        rw [List.countP_eq_zero]
        intro tr htr
        obtain ⟨k, hk, rfl⟩ := List.mem_iff_getElem.mp htr
        have := hnone k hk
        rw [List.getD_eq_getElem rest default hk] at this
        simp [this]
      cases j with
      | zero => simp [List.countP_cons, hPa, hcnt]
      | succ j' =>
        have hj' : j' < rest.length := by simpa using hj
        have := hnone j' hj'
        simp only [List.getD_cons_succ]
        simp only [List.countP_cons, hPa, hcnt]
        simpa [List.getD] using this

/-- Under downward closure the filtered list is an initial segment. -/
theorem downClosed_filter_eq_take (ts : List SignalTransition)
    (P : SignalTransition → Bool)
    (dc : ∀ i j : Nat, i < j → j < ts.length →
      P (ts.getD j default) = true → P (ts.getD i default) = true) :
    ts.filter P = ts.take (ts.countP P) := by
  induction ts with
  | nil => simp
  | cons a rest ih =>
    have dcr : ∀ i j : Nat, i < j → j < rest.length →
        P (rest.getD j default) = true → P (rest.getD i default) = true := by
      intro i j hij hj hP
      have := dc (i + 1) (j + 1) (by omega) (by simpa using Nat.succ_lt_succ hj)
      simpa using this hP
    by_cases hPa : P a = true
    · simp [List.filter_cons, List.countP_cons, hPa, ih dcr]
    · have hnone : ∀ k : Nat, k < rest.length → P (rest.getD k default) = false := by
        intro k hk
        by_contra hne
        have hPk : P (rest.getD k default) = true := by
          cases h : P (rest.getD k default) with
          | false => exact absurd h hne
          | true => rfl
        have := dc 0 (k + 1) (by omega) (by simpa using Nat.succ_lt_succ hk)
        simp only [List.getD_cons_succ, List.getD_cons_zero] at this
        exact hPa (this hPk)
      have hcnt : rest.countP P = 0 := by
        rw [List.countP_eq_zero]
        intro tr htr
        obtain ⟨k, hk, rfl⟩ := List.mem_iff_getElem.mp htr
        have := hnone k hk
        rw [List.getD_eq_getElem rest default hk] at this
        simp [this]
      have hfil : rest.filter P = [] := by
        rw [List.filter_eq_nil_iff]
        intro tr htr
        obtain ⟨k, hk, rfl⟩ := List.mem_iff_getElem.mp htr
        have := hnone k hk
        rw [List.getD_eq_getElem rest default hk] at this
        simp [this]
      simp [List.filter_cons, List.countP_cons, hPa, hcnt, hfil]
/-- Invariant proof for the binary-search loop of `getValueAt`: with all
indices below `lo` satisfying at-or-before, all indices above `hi`
failing it, and `res` holding the value at `lo - 1` (or the sentinel),
the loop computes the value at the last satisfying index. -/
theorem gvaLoop_spec (ts : List SignalTransition) (q : Int)
    (dc : ∀ i j : Nat, i < j → j < ts.length →
      timeLE (ts.getD j default).time q = true →
      timeLE (ts.getD i default).time q = true) :
    ∀ fuel (lo : Nat) (hi : Int) res,
      (hi + 1 - lo).toNat < fuel →
      lo ≤ ts.length → hi < (ts.length : Int) → (lo : Int) ≤ hi + 1 →
      (∀ j : Nat, j < lo → timeLE (ts.getD j default).time q = true) →
      (∀ j : Nat, (hi : Int) < j → j < ts.length →
        timeLE (ts.getD j default).time q = false) →
      res = (if lo = 0 then "x" else (ts.getD (lo - 1) default).value) →
      gvaLoop ts q fuel lo hi res
        = (if ts.countP (fun tr => timeLE tr.time q) = 0 then "x"
           else (ts.getD (ts.countP (fun tr => timeLE tr.time q) - 1) default).value) := by
  intro fuel
  induction fuel with
  | zero =>
    intro lo hi res hf
    exact (Nat.not_lt_zero _ hf).elim
  | succ n ih =>
    intro lo hi res hf hlo hhi hlohi hA hB hres
    by_cases hcond : (lo : Int) ≤ hi
    · rw [gvaLoop, if_pos hcond]
      have hhi0 : (0 : Int) ≤ hi := le_trans (by omega) hcond
      have hmidlo : lo ≤ (lo + hi.toNat) / 2 := by omega
      have hmidhi : (lo + hi.toNat) / 2 ≤ hi.toNat := by omega
      have hmidlen : (lo + hi.toNat) / 2 < ts.length := by omega
      by_cases hP : timeLE (ts.getD ((lo + hi.toNat) / 2) default).time q = true
      · rw [if_pos hP]
        refine ih ((lo + hi.toNat) / 2 + 1) hi _ (by omega) (by omega) hhi
          (by omega) ?_ hB (by simp)
        intro j hj
        rcases Nat.lt_or_ge j ((lo + hi.toNat) / 2) with h | h
        · exact dc j _ h hmidlen hP
        · have hje : j = (lo + hi.toNat) / 2 := by omega
          rw [hje]; exact hP
      · rw [if_neg hP]
        refine ih lo ((((lo + hi.toNat) / 2 : Nat) : Int) - 1) res
          (by omega) hlo (by omega) (by omega) hA ?_ hres
        intro j hj hjlen
        rcases Nat.lt_or_ge ((lo + hi.toNat) / 2) j with h | h
        · cases hPj : timeLE (ts.getD j default).time q with
          | false => rfl
          | true => exact absurd (dc _ j h hjlen hPj) hP
        · have hje : j = (lo + hi.toNat) / 2 := by omega
          rw [hje]
          cases hPm : timeLE (ts.getD ((lo + hi.toNat) / 2) default).time q with
          | false => rfl
          | true => exact absurd hPm hP
    · rw [gvaLoop, if_neg hcond]
      have hKlo : ts.countP (fun tr => timeLE tr.time q) = lo := by
        have hiff := downClosed_iff_lt_countP ts (fun tr => timeLE tr.time q) dc
        rcases Nat.lt_or_ge lo (ts.countP (fun tr => timeLE tr.time q)) with h | h
        · exfalso
          have hKlen : ts.countP (fun tr => timeLE tr.time q) ≤ ts.length :=
            List.countP_le_length _
          have hlt : lo < ts.length := by omega
          have htrue : timeLE (ts.getD lo default).time q = true := (hiff lo hlt).mpr h
          have hfalse := hB lo (by omega) hlt
          rw [htrue] at hfalse
          simp at hfalse
        · rcases Nat.eq_or_lt_of_le h with h' | h'
          · omega
          · exfalso
            have hl1 : lo - 1 < ts.length := by omega
            have hsat := hA (lo - 1) (by omega)
            have h2 := (hiff (lo - 1) hl1).mp hsat
            omega
      rw [hKlo, hres]

/-- C7: on a sorted bucket, `getValueAt` returns the value of the last
transition at or before the queried time — at a transition's own time
that transition's value, after the last transition the last value — and
the sentinel "x" when no transition is at or before the time (including
an empty or unknown-signal bucket). -/
theorem claim_C7 (w : WaveformIndex) (sig : String) (q : Int)
    (hs : SortedBucket (w.bucket sig)) :
    w.getValueAt sig q = (lastAtOrBefore (w.bucket sig) q).elim "x" (·.value) := by
  have dc := sorted_downClosed (w.bucket sig) q hs
  have hloop := gvaLoop_spec (w.bucket sig) q dc ((w.bucket sig).length + 1) 0
    (((w.bucket sig).length : Int) - 1) "x" (by omega) (by omega) (by omega)
    (by omega) (by omega) (by intro j hj hjlen; omega) (by simp)
  rw [WaveformIndex.getValueAt]
  rw [hloop]
  rw [lastAtOrBefore,
    downClosed_filter_eq_take (w.bucket sig) (fun tr => timeLE tr.time q) dc]
  by_cases hK : (w.bucket sig).countP (fun tr => timeLE tr.time q) = 0
  · rw [if_pos hK, hK]
    simp
  · rw [if_neg hK]
    have hKlen : (w.bucket sig).countP (fun tr => timeLE tr.time q)
        ≤ (w.bucket sig).length := List.countP_le_length _
    rw [List.getLast?_eq_getElem?]
    have hlen : ((w.bucket sig).take
        ((w.bucket sig).countP (fun tr => timeLE tr.time q))).length
        = (w.bucket sig).countP (fun tr => timeLE tr.time q) := by
      simp [hKlen]
    rw [hlen]
    rw [List.getElem?_take_of_lt (by omega)]
    rw [List.getElem?_eq_getElem
      (show (w.bucket sig).countP (fun tr => timeLE tr.time q) - 1
        < (w.bucket sig).length by omega)]
    rw [List.getD_eq_getElem _ default
      (show (w.bucket sig).countP (fun tr => timeLE tr.time q) - 1
        < (w.bucket sig).length by omega)]
    rfl
/-- C7 witness: on the fixture bucket for `a` (times 0, 5, 10, sorted),
the value at time 7 is the one set at time 5. -/
theorem claim_C7_witness : exIdx.getValueAt "a" 7 = "1" := by
  have h := claim_C7 exIdx "a" 7
    ⟨[0, 5, 10], by decide, by
      refine List.Pairwise.cons ?_ (List.Pairwise.cons ?_ ?_) <;> simp⟩
  rw [h]
  decide
/-- Control-flow shape of one data-phase step: a line either leaves the
state unchanged, only toggles the skip flag, only updates the time
watermark (timestamp record outside a skip region), or runs the shared
emit-if-changed block. -/
theorem dataStep_shape (defs : List (List Char × VcdSignal)) (s : DataState)
    (raw : List Char) :
    dataStep defs s raw = s ∨
    dataStep defs s raw
      = { s with skipToEnd := !(containsSub (jsTrim raw) "$end".data) } ∨
    (startsWithL (jsTrim raw) ['#'] = true ∧
      dataStep defs s raw
        = { s with currentTime := jsParseInt ((jsTrim raw).drop 1),
                   endTime := bumpEnd (jsParseInt ((jsTrim raw).drop 1)) s.endTime }) ∨
    (∃ path val, dataStep defs s raw = emitChange s path val) := by
  by_cases h1 : (jsTrim raw).isEmpty
  · left; simp [dataStep, h1]
  by_cases h2 : startsWithL (jsTrim raw) ['$'] = true
  · right; left; simp [dataStep, h1, h2]
  by_cases h3 : s.skipToEnd = true
  · left; simp [dataStep, h1, h2, h3]
  by_cases h4 : startsWithL (jsTrim raw) ['#'] = true
  · right; right; left
    exact ⟨h4, by simp [dataStep, h1, h2, h3, h4]⟩
  by_cases h5 : (jsTrim raw).head? = some 'b' ∨ (jsTrim raw).head? = some 'B'
  · rcases h6 : idxOfSpace (jsTrim raw) with _ | sp
    · left; simp [dataStep, h1, h2, h3, h4, h5, h6]
    · by_cases h7 : sp > 0
      · rcases h8 : alGet defs (jsTrim ((jsTrim raw).drop (sp + 1))) with _ | sig
        · left; simp [dataStep, h1, h2, h3, h4, h5, h6, h7, h8]
        · right; right; right
          exact ⟨sig.path, formatBits (((jsTrim raw).take sp).drop 1) sig.width,
            by simp [dataStep, h1, h2, h3, h4, h5, h6, h7, h8]⟩
      · left; simp [dataStep, h1, h2, h3, h4, h5, h6, h7]
  by_cases h9 : (jsTrim raw).head? = some 'r' ∨ (jsTrim raw).head? = some 'R'
  · rcases h6 : idxOfSpace (jsTrim raw) with _ | sp
    · left; simp [dataStep, h1, h2, h3, h4, h5, h6, h9]
    · by_cases h7 : sp > 0
      · rcases h8 : alGet defs (jsTrim ((jsTrim raw).drop (sp + 1))) with _ | sig
        · left; simp [dataStep, h1, h2, h3, h4, h5, h6, h7, h8, h9]
        · right; right; right
          exact ⟨sig.path, String.mk (((jsTrim raw).take sp).drop 1),
            by simp [dataStep, h1, h2, h3, h4, h5, h6, h7, h8, h9]⟩
      · left; simp [dataStep, h1, h2, h3, h4, h5, h6, h7, h9]
  by_cases h10 : (jsTrim raw).length ≥ 2 ∧
      ((jsTrim raw).head? = some '0' ∨ (jsTrim raw).head? = some '1' ∨
       (jsTrim raw).head? = some 'x' ∨ (jsTrim raw).head? = some 'X' ∨
       (jsTrim raw).head? = some 'z' ∨ (jsTrim raw).head? = some 'Z')
  · rcases h8 : alGet defs (jsTrim ((jsTrim raw).tail)) with _ | sig
    · left; simp [dataStep, h1, h2, h3, h4, h5, h8, h9, h10, List.drop_one]
    · right; right; right
      exact ⟨sig.path, String.mk [((jsTrim raw).headD ' ').toLower],
        by simp [dataStep, h1, h2, h3, h4, h5, h8, h9, h10, List.drop_one]⟩
  · left; simp [dataStep, h1, h2, h3, h4, h5, h9, h10]
/-- Decomposition of the timestamp-record stream at a cons. -/
theorem stampsOf_cons (l : List Char) (rest : List (List Char)) :
    stampsOf (l :: rest)
      = (if startsWithL (jsTrim l) ['#'] then [jsParseInt ((jsTrim l).drop 1)]
         else []) ++ stampsOf rest := by
  simp only [stampsOf, List.filterMap_cons]
  split_ifs with h <;> simp [h]

/-- `emitChange` only touches the transition list, the last-value map and
the catalog; the appended transition (if any) carries the current
watermark as its time. -/
theorem emitChange_fields (s : DataState) (path val : String) :
    (emitChange s path val).currentTime = s.currentTime ∧
    (emitChange s path val).endTime = s.endTime ∧
    ((emitChange s path val).transitions = s.transitions ∨
      (emitChange s path val).transitions
        = s.transitions ++ [⟨s.currentTime, path, val⟩]) := by
  unfold emitChange
  split_ifs <;> simp

/-- The watermark never exceeds the updated end time. -/
theorem le_bumpEnd (v e : Int) : v ≤ bumpEnd (some v) e := by
  simp only [bumpEnd]
  split_ifs <;> omega

/-- The old end time never shrinks. -/
theorem bumpEnd_ge (t : Option Int) (e : Int) : e ≤ bumpEnd t e := by
  rcases t with _ | v
  · simp [bumpEnd]
  · simp only [bumpEnd]
    split_ifs <;> omega

/-- An emit step preserves the time bounds and per-signal monotonicity
invariants. -/
theorem inv_emit (s : DataState) (path val : String) (c : Int)
    (hct : s.currentTime = some c) (h0 : 0 ≤ c)
    (htr : ∀ tr ∈ s.transitions, ∃ t, tr.time = some t ∧ 0 ≤ t ∧ t ≤ c)
    (hpw : s.transitions.Pairwise TimeMono) :
    (∀ tr ∈ (emitChange s path val).transitions,
      ∃ t, tr.time = some t ∧ 0 ≤ t ∧ t ≤ c) ∧
    (emitChange s path val).transitions.Pairwise TimeMono := by
  rcases (emitChange_fields s path val).2.2 with he | he
  · rw [he]; exact ⟨htr, hpw⟩
  · rw [he]
    constructor
    · intro tr htr'
      rcases List.mem_append.mp htr' with h | h
      · exact htr tr h
      · simp only [List.mem_singleton] at h
        subst h
        exact ⟨c, by simp [hct], h0, le_refl c⟩
    · rw [List.pairwise_append]
      refine ⟨hpw, List.pairwise_singleton _ _, ?_⟩
      intro a ha b hb
      simp only [List.mem_singleton] at hb
      subst hb
      intro ta tb hta htb
      rcases htr a ha with ⟨t, ht, _, htc⟩
      rw [ht, Option.some.injEq] at hta
      simp only [hct, Option.some.injEq] at htb
      omega

/-- Invariant of the data-phase fold: under numeric, nonnegative,
nondecreasing timestamp records, every emitted transition has a numeric
time between 0 and the final watermark (which is at most the reported
end time), and the whole log is per-signal nondecreasing. -/
theorem dataFold_timeInv (defs : List (List Char × VcdSignal)) :
    ∀ (ls : List (List Char)) (s : DataState) (c : Int) (vs : List Int),
      stampsOf ls = vs.map some →
      (∀ v ∈ vs, 0 ≤ v) → vs.Pairwise (· ≤ ·) →
      s.currentTime = some c → 0 ≤ c → c ≤ s.endTime →
      (∀ v ∈ vs, c ≤ v) →
      (∀ tr ∈ s.transitions, ∃ t, tr.time = some t ∧ 0 ≤ t ∧ t ≤ c) →
      s.transitions.Pairwise TimeMono →
      (∃ c', (ls.foldl (dataStep defs) s).currentTime = some c' ∧
        c' ≤ (ls.foldl (dataStep defs) s).endTime ∧
        ∀ tr ∈ (ls.foldl (dataStep defs) s).transitions,
          ∃ t, tr.time = some t ∧ 0 ≤ t ∧ t ≤ c') ∧
      (ls.foldl (dataStep defs) s).transitions.Pairwise TimeMono := by
  intro ls
  induction ls with
  | nil =>
    intro s c vs _ _ _ hct h0 hend _ htr hpw
    exact ⟨⟨c, hct, hend, htr⟩, hpw⟩
  | cons l rest ih =>
    intro s c vs hst hv0 hvpw hct h0 hend hcv htr hpw
    rw [List.foldl_cons]
    rw [stampsOf_cons] at hst
    by_cases hsplit : startsWithL (jsTrim l) ['#'] = true
    · -- a timestamp record: the stamp stream yields its head
      rw [if_pos hsplit] at hst
      rcases vs with _ | ⟨v, vs'⟩
      · simp at hst
      · simp only [List.map_cons, List.cons_append, List.nil_append,
          List.cons.injEq] at hst
        obtain ⟨hv, hrest⟩ := hst
        have hv0' : ∀ u ∈ vs', 0 ≤ u := fun u hu => hv0 u (by simp [hu])
        have hvpw' : vs'.Pairwise (· ≤ ·) := hvpw.of_cons
        have hvhead : ∀ u ∈ vs', v ≤ u := (List.pairwise_cons.mp hvpw).1
        have hcvv : c ≤ v := hcv v (by simp)
        rcases dataStep_shape defs s l with hsh | hsh | ⟨_, hsh⟩ | ⟨path, val, hsh⟩
        · rw [hsh]
          exact ih s c vs' hrest hv0' hvpw' hct h0 hend
            (fun u hu => le_trans hcvv (hvhead u hu)) htr hpw
        · rw [hsh]
          exact ih _ c vs' hrest hv0' hvpw' hct h0 hend
            (fun u hu => le_trans hcvv (hvhead u hu)) htr hpw
        · rw [hsh, hv]
          refine ih _ v vs' hrest hv0' hvpw' (by simp) (by omega)
            (by simpa using le_bumpEnd v s.endTime) hvhead ?_ hpw
          intro tr htr'
          rcases htr tr htr' with ⟨t, ht, ht0, htc⟩
          exact ⟨t, ht, ht0, by omega⟩
        · rw [hsh]
          obtain ⟨hemit1, hemit2⟩ := inv_emit s path val c hct h0 htr hpw
          refine ih _ c vs' ?_ hv0' hvpw'
            (by rw [(emitChange_fields s path val).1]; exact hct) h0
            (by rw [(emitChange_fields s path val).2.1]; exact hend)
            (fun u hu => le_trans hcvv (hvhead u hu)) hemit1 hemit2
          exact hrest
    · -- not a timestamp record: the stamp stream is untouched
      rw [if_neg hsplit] at hst
      simp only [List.nil_append] at hst
      rcases dataStep_shape defs s l with hsh | hsh | ⟨hH, hsh⟩ | ⟨path, val, hsh⟩
      · rw [hsh]
        exact ih s c vs hst hv0 hvpw hct h0 hend hcv htr hpw
      · rw [hsh]
        exact ih _ c vs hst hv0 hvpw hct h0 hend hcv htr hpw
      · exact absurd hH hsplit
      · rw [hsh]
        obtain ⟨hemit1, hemit2⟩ := inv_emit s path val c hct h0 htr hpw
        exact ih _ c vs hst hv0 hvpw
          (by rw [(emitChange_fields s path val).1]; exact hct) h0
          (by rw [(emitChange_fields s path val).2.1]; exact hend)
          hcv hemit1 hemit2
/-- C8 counterexample: the claim quantifies over every input text, but a
record at a negative timestamp (`#-5`) produces a transition at time -5
while the reported end time is 0 — outside [0, endTime] — and
out-of-order timestamps (`#5` then `#3`) produce a signal bucket whose
times decrease in emission order. -/
theorem claim_C8_cex :
    (parseVcd negTimeContent).transitions = [⟨some (-5), "a", "0"⟩] ∧
    (parseVcd negTimeContent).endTime = 0 ∧
    ¬ ((0 : Int) ≤ -5) ∧
    (parseVcd backTimeContent).transitions
      = [⟨some 5, "a", "0"⟩, ⟨some 3, "a", "1"⟩] ∧
    ¬ ((5 : Int) ≤ 3) := by
  exact ⟨by decide, by decide, by decide, by decide, by decide⟩

/-- C8 (amended): for every input whose timestamp records are numeric,
nonnegative and nondecreasing, every transition's time is numeric and
lies in [0, endTime], and each signal's transition times are
nondecreasing in emission order. -/
theorem claim_C8 (content : String)
    (h : GoodStamps (parseVcdHeader content).2) :
    (∀ tr ∈ (parseVcd content).transitions,
      ∃ t, tr.time = some t ∧ 0 ≤ t ∧ t ≤ (parseVcd content).endTime) ∧
    ∀ sig, (sigBucket (parseVcd content).transitions sig).Pairwise TimeMono := by
  obtain ⟨vs, hst, hv0, hvpw⟩ := h
  have key := dataFold_timeInv (parseVcdHeader content).1.defs
    (parseVcdHeader content).2 initData 0 vs hst hv0 hvpw rfl (le_refl 0)
    (le_refl 0) (fun v hv => hv0 v hv) (by simp [initData]) (by simp [initData])
  have htrans : (parseVcd content).transitions
      = ((parseVcdHeader content).2.foldl
          (dataStep (parseVcdHeader content).1.defs) initData).transitions := rfl
  have hendeq : (parseVcd content).endTime
      = ((parseVcdHeader content).2.foldl
          (dataStep (parseVcdHeader content).1.defs) initData).endTime := rfl
  obtain ⟨⟨c', _, hce', htr'⟩, hpw'⟩ := key
  constructor
  · intro tr htr2
    rw [htrans] at htr2
    rcases htr' tr htr2 with ⟨t, ht, h0t, htc⟩
    exact ⟨t, ht, h0t, by rw [hendeq]; omega⟩
  · intro sig
    rw [sigBucket, htrans]
    exact hpw'.sublist (List.filter_sublist _)

/-- C8 witness: `dumpvarsContent` has timestamps 0, 5 — numeric,
nonnegative, nondecreasing — so signal `a`'s bucket is monotone. -/
theorem claim_C8_witness :
    (sigBucket (parseVcd dumpvarsContent).transitions "a").Pairwise TimeMono :=
  (claim_C8 dumpvarsContent
    ⟨[0, 5], by decide, by decide, by norm_num [List.pairwise_cons]⟩).2 "a"
/-- Lookup after a replacing write, same key. -/
theorem alSetS_get_eq {α : Type} (m : List (String × α)) (k : String) (v : α) :
    alGetS (alSetS m k v) k = some v := by
  induction m with
  | nil => simp [alGetS, alSetS]
  | cons p t ih =>
    obtain ⟨k', v'⟩ := p
    by_cases h : k = k'
    · simp [alGetS, alSetS, h]
    · simp [alGetS, alSetS, h, ih]

/-- Lookup after a replacing write, other key. -/
theorem alSetS_get_ne {α : Type} (m : List (String × α)) (k k' : String)
    (v : α) (h : k' ≠ k) : alGetS (alSetS m k v) k' = alGetS m k' := by
  induction m with
  | nil => simp [alGetS, alSetS, h]
  | cons p t ih =>
    obtain ⟨k₀, v₀⟩ := p
    by_cases h0 : k = k₀
    · subst h0
      simp [alGetS, alSetS, h]
    · by_cases h1 : k' = k₀ <;> simp [alGetS, alSetS, h0, h1, ih]

/-- Membership in the insertion-ordered set after `add`. -/
theorem setAdd_mem (s : List String) (y x : String) :
    x ∈ setAdd s y ↔ x ∈ s ∨ x = y := by
  by_cases h : y ∈ s
  · simp only [setAdd, if_pos h]
    constructor
    · exact Or.inl
    · rintro (hx | rfl)
      · exact hx
      · exact h
  · simp [setAdd, if_neg h]

/-- Appending one transition extends exactly its own signal's bucket. -/
theorem sigBucket_append (l : List SignalTransition) (tr : SignalTransition)
    (sig : String) :
    sigBucket (l ++ [tr]) sig
      = sigBucket l sig ++ (if tr.signal = sig then [tr] else []) := by
  simp only [sigBucket, List.filter_append]
  congr 1
  split_ifs with h <;> simp [h]

/-- An emit step preserves the last-value consistency, consecutive-value
distinctness, and catalog invariants. -/
theorem emitChange_dedupInv (s : DataState) (path val : String)
    (h1 : ∀ sig, alGetS s.lastValues sig
      = (sigBucket s.transitions sig).getLast?.map (·.value))
    (h2 : ∀ sig, ((sigBucket s.transitions sig).map (·.value)).Chain' (· ≠ ·))
    (h3 : ∀ sig, sig ∈ s.sigsWith ↔ sigBucket s.transitions sig ≠ []) :
    (∀ sig, alGetS (emitChange s path val).lastValues sig
      = (sigBucket (emitChange s path val).transitions sig).getLast?.map (·.value)) ∧
    (∀ sig, ((sigBucket (emitChange s path val).transitions sig).map
      (·.value)).Chain' (· ≠ ·)) ∧
    (∀ sig, sig ∈ (emitChange s path val).sigsWith ↔
      sigBucket (emitChange s path val).transitions sig ≠ []) := by
  by_cases hguard : alGetS s.lastValues path = some val
  · simp only [emitChange, if_pos hguard]
    exact ⟨h1, h2, h3⟩
  · simp only [emitChange, if_neg hguard]
    refine ⟨?_, ?_, ?_⟩
    · intro sig
      by_cases hsig : sig = path
      · subst hsig
        rw [alSetS_get_eq, sigBucket_append]
        simp
      · rw [alSetS_get_ne _ _ _ _ hsig, sigBucket_append]
        simp only [show (⟨s.currentTime, path, val⟩ : SignalTransition).signal
          = path from rfl]
        rw [if_neg (fun hh => hsig hh.symm)]
        simp [h1 sig]
    · intro sig
      by_cases hsig : sig = path
      · subst hsig
        rw [sigBucket_append,
          if_pos (show (⟨s.currentTime, sig, val⟩ : SignalTransition).signal
            = sig from rfl)]
        rw [List.map_append]
        rw [List.chain'_append]
        refine ⟨h2 sig, by simp, ?_⟩
        intro x hx y hy
        simp only [List.map_cons, List.map_nil, List.head?_cons,
          Option.mem_def, Option.some.injEq] at hy
        subst hy
        -- x is the last previously recorded value for `sig`
        have hlast := h1 sig
        intro hxy
        apply hguard
        rw [hlast]
        rw [List.getLast?_map] at hx
        simp only [Option.mem_def, Option.map_eq_some'] at hx
        obtain ⟨tr, htr, hval⟩ := hx
        rw [htr]
        simp [hval, hxy]
      · rw [sigBucket_append]
        simp only [show (⟨s.currentTime, path, val⟩ : SignalTransition).signal
          = path from rfl]
        rw [if_neg (fun hh => hsig hh.symm)]
        simp [h2 sig]
    · intro sig
      by_cases hsig : sig = path
      · subst hsig
        rw [sigBucket_append,
          if_pos (show (⟨s.currentTime, sig, val⟩ : SignalTransition).signal
            = sig from rfl)]
        simp [setAdd_mem]
      · rw [sigBucket_append]
        simp only [show (⟨s.currentTime, path, val⟩ : SignalTransition).signal
          = path from rfl]
        rw [if_neg (fun hh => hsig hh.symm)]
        simp only [List.append_nil]
        rw [setAdd_mem]
        constructor
        · rintro (hmem | rfl)
          · exact (h3 sig).mp hmem
          · exact absurd rfl hsig
        · intro hne
          exact Or.inl ((h3 sig).mpr hne)
/-- Invariant of the data-phase fold: the last-value map mirrors each
bucket's last value, consecutive per-signal values are distinct, and the
catalog is exactly the signals with a nonempty bucket. -/
theorem dataFold_dedupInv (defs : List (List Char × VcdSignal)) :
    ∀ (ls : List (List Char)) (s : DataState),
      (∀ sig, alGetS s.lastValues sig
        = (sigBucket s.transitions sig).getLast?.map (·.value)) →
      (∀ sig, ((sigBucket s.transitions sig).map (·.value)).Chain' (· ≠ ·)) →
      (∀ sig, sig ∈ s.sigsWith ↔ sigBucket s.transitions sig ≠ []) →
      (∀ sig, ((sigBucket (ls.foldl (dataStep defs) s).transitions sig).map
        (·.value)).Chain' (· ≠ ·)) ∧
      (∀ sig, sig ∈ (ls.foldl (dataStep defs) s).sigsWith ↔
        sigBucket (ls.foldl (dataStep defs) s).transitions sig ≠ []) := by
  intro ls
  induction ls with
  | nil =>
    intro s _ h2 h3
    exact ⟨h2, h3⟩
  | cons l rest ih =>
    intro s h1 h2 h3
    rw [List.foldl_cons]
    rcases dataStep_shape defs s l with hsh | hsh | ⟨_, hsh⟩ | ⟨path, val, hsh⟩
    · rw [hsh]; exact ih s h1 h2 h3
    · rw [hsh]; exact ih _ h1 h2 h3
    · rw [hsh]; exact ih _ h1 h2 h3
    · rw [hsh]
      obtain ⟨g1, g2, g3⟩ := emitChange_dedupInv s path val h1 h2 h3
      exact ih _ g1 g2 g3

/-- C9: in the parser's output no two consecutive transitions of the
same signal share a formatted value (a transition is emitted only when
its formatted value differs from the signal's last recorded one), and
the catalog lists exactly the signals with at least one emitted
transition. -/
theorem claim_C9 (content : String) :
    (∀ sig, ((sigBucket (parseVcd content).transitions sig).map
      (·.value)).Chain' (· ≠ ·)) ∧
    (∀ sig, sig ∈ (parseVcd content).signals ↔
      sigBucket (parseVcd content).transitions sig ≠ []) := by
  have key := dataFold_dedupInv (parseVcdHeader content).1.defs
    (parseVcdHeader content).2 initData
    (by intro sig; simp [initData, alGetS, sigBucket])
    (by intro sig; simp [initData, sigBucket])
    (by intro sig; simp [initData, sigBucket])
  exact key
/-- The lines left over by `collectUntilEnd` are a suffix of its input. -/
theorem collectUntilEnd_suffix (t : List Char) (ls : List (List Char)) :
    (collectUntilEnd t ls).2 <:+ ls := by
  induction ls generalizing t with
  | nil =>
    rw [collectUntilEnd]
    split_ifs <;> simp
  | cons l rest ih =>
    rw [collectUntilEnd]
    split_ifs with h
    · exact List.suffix_refl _
    · exact (ih _).trans (List.suffix_cons l rest)

/-- The lines left over by `collectBody` are a suffix of its input. -/
theorem collectBody_suffix (t : List Char) (ls : List (List Char)) :
    (collectBody t ls).2 <:+ ls :=
  collectUntilEnd_suffix t ls

/-- The lines left over by a block skip are a suffix of its input. -/
theorem skipPastEnd_suffix (ls : List (List Char)) :
    skipPastEnd ls <:+ ls := by
  induction ls with
  | nil => exact List.suffix_refl _
  | cons l rest ih =>
    rw [skipPastEnd]
    split_ifs with h
    · exact List.suffix_cons l rest
    · exact ih.trans (List.suffix_cons l rest)

set_option maxRecDepth 4000 in
/-- If no line declares a timescale, the header loop never changes the
timescale field. -/
theorem headerLoop_timescale :
    ∀ fuel (hs : HeaderState) (ls : List (List Char)),
      (∀ l ∈ ls, ¬ startsWithL (jsTrim l) "$timescale".data = true) →
      (headerLoop fuel hs ls).1.timescale = hs.timescale := by
  intro fuel
  induction fuel with
  | zero => intro hs ls _; rfl
  | succ n ih =>
    intro hs ls h
    rcases ls with _ | ⟨raw, rest⟩
    · rfl
    · have hts : ¬ startsWithL (jsTrim raw) "$timescale".data = true :=
        h raw (by simp)
      have hrest : ∀ l ∈ rest, ¬ startsWithL (jsTrim l) "$timescale".data = true :=
        fun l hl => h l (by simp [hl])
      have hbody : ∀ l ∈ (collectBody (jsTrim raw) rest).2,
          ¬ startsWithL (jsTrim l) "$timescale".data = true :=
        fun l hl => hrest l ((collectBody_suffix _ rest).subset hl)
      have hskip : ∀ l ∈ skipPastEnd rest,
          ¬ startsWithL (jsTrim l) "$timescale".data = true :=
        fun l hl => hrest l ((skipPastEnd_suffix rest).subset hl)
      simp only [headerLoop]
      by_cases h1 : (jsTrim raw).isEmpty
      · rw [if_pos h1]; exact ih hs rest hrest
      rw [if_neg h1, if_neg hts]
      by_cases h2 : startsWithL (jsTrim raw) "$scope".data = true
      · rw [if_pos h2]
        split
        · split_ifs <;> exact ih _ _ hbody
        · exact ih _ _ hbody
      rw [if_neg h2]
      by_cases h3 : startsWithL (jsTrim raw) "$upscope".data = true
      · rw [if_pos h3]; exact ih _ rest hrest
      rw [if_neg h3]
      by_cases h4 : startsWithL (jsTrim raw) "$var".data = true
      · rw [if_pos h4]
        split
        · split_ifs <;> exact ih _ _ hbody
        · exact ih _ _ hbody
      rw [if_neg h4]
      by_cases h5 : startsWithL (jsTrim raw) "$enddefinitions".data = true
      · rw [if_pos h5]
        split_ifs <;> rfl
      rw [if_neg h5]
      by_cases h6 : startsWithL (jsTrim raw) ['$'] = true ∧
          ¬ containsSub (jsTrim raw) "$end".data = true
      · rw [if_pos h6]; exact ih hs _ hskip
      · rw [if_neg h6]; exact ih hs rest hrest

/-- A one-character pattern is a prefix exactly when it is the head. -/
theorem startsWith_single (cs : List Char) (c : Char) :
    startsWithL cs [c] = true ↔ cs.head? = some c := by
  rw [startsWithL, List.isPrefixOf_iff_prefix]
  cases cs with
  | nil => simp
  | cons c' t =>
    rw [List.cons_prefix_cons]
    simp [eq_comm]

/-- An unknown signal has no bucket. -/
theorem buildBuckets_not_mem (ts : List SignalTransition) (sig : String)
    (h : ∀ tr ∈ ts, tr.signal ≠ sig) :
    alGetS (buildBuckets ts) sig = none := by
  suffices hgen : ∀ m, alGetS m sig = none →
      alGetS (ts.foldl
        (fun m t => alSetS m t.signal ((alGetS m t.signal).getD [] ++ [t])) m) sig
        = none by
    exact hgen [] rfl
  induction ts with
  | nil => intro m hm; exact hm
  | cons tr rest ih =>
    intro m hm
    rw [List.foldl_cons]
    refine ih (fun a ha => h a (by simp [ha])) _ ?_
    rw [alSetS_get_ne _ _ _ _ (fun he => h tr (by simp) he.symm)]
    exact hm

/-- The sentinel loop: if nothing is at or before the queried time the
search never overwrites the sentinel. -/
theorem gvaLoop_sentinel (ts : List SignalTransition) (q : Int)
    (h : ∀ tr ∈ ts, timeLE tr.time q = false) :
    ∀ fuel (lo : Nat) (hi : Int), gvaLoop ts q fuel lo hi "x" = "x" := by
  intro fuel
  induction fuel with
  | zero => intro lo hi; rfl
  | succ n ih =>
    intro lo hi
    rw [gvaLoop]
    split_ifs with hcond
    · have hfalse : timeLE (ts.getD ((lo + hi.toNat) / 2) default).time q = false := by
        rcases Nat.lt_or_ge ((lo + hi.toNat) / 2) ts.length with hlt | hge
        · exact h _ (getD_mem_of_lt hlt default)
        · rw [List.getD_eq_default _ _ hge]
          rfl
      rw [if_neg (by simp only [List.getD, List.get?_eq_getElem?] at hfalse; simp [hfalse])]
      exact ih lo _
    · rfl

/-- C10: the parser and index degrade instead of failing: a dump with no
timescale declaration keeps the default "1 ns"; a data-phase line that
matches no record form (blank lines aside, any line whose first
character is none of `$ # b B r R 0 1 x X z Z`) leaves the parser state
entirely unchanged; a range query on an unknown signal returns the empty
list; a point query with no transition at or before the queried time
returns the sentinel "x". -/
theorem claim_C10 :
    (∀ content : String,
      (∀ l ∈ splitLines content,
        ¬ startsWithL (jsTrim l) "$timescale".data = true) →
      (parseVcd content).timescale = "1 ns") ∧
    (∀ (defs : List (List Char × VcdSignal)) (s : DataState) (raw : List Char),
      ¬ (jsTrim raw).isEmpty = true →
      (jsTrim raw).head?.getD ' '
        ∉ ['$', '#', 'b', 'B', 'r', 'R', '0', '1', 'x', 'X', 'z', 'Z'] →
      dataStep defs s raw = s) ∧
    (∀ (w : WaveformIndex) (sig : String) (tStart tEnd : Int) (cap : Nat),
      (∀ tr ∈ w.transitions, tr.signal ≠ sig) →
      w.queryTransitions sig tStart tEnd cap = []) ∧
    (∀ (w : WaveformIndex) (sig : String) (q : Int),
      (∀ tr ∈ w.bucket sig, timeLE tr.time q = false) →
      w.getValueAt sig q = "x") := by
  refine ⟨?_, ?_, ?_, ?_⟩
  · intro content h
    exact headerLoop_timescale _ initHeader (splitLines content) h
  · intro defs s raw hne hc
    have hhead : (jsTrim raw).head? = some ((jsTrim raw).head?.getD ' ') := by
      rcases hcs : jsTrim raw with _ | ⟨c, t⟩
      · rw [hcs] at hne; simp at hne
      · simp
    simp only [List.mem_cons, List.mem_singleton, not_or] at hc
    obtain ⟨hc1, hc2, hc3, hc4, hc5, hc6, hc7, hc8, hc9, hc10, hc11, hc12, -⟩ := hc
    rw [dataStep]
    rw [if_neg hne,
      if_neg (by rw [startsWith_single, hhead]; simp [hc1])]
    by_cases hskip : s.skipToEnd = true
    · rw [if_pos hskip]
    · rw [if_neg hskip,
        if_neg (by rw [startsWith_single, hhead]; simp [hc2]),
        if_neg (by rw [hhead]; simp [hc3, hc4]),
        if_neg (by rw [hhead]; simp [hc5, hc6]),
        if_neg (by rw [hhead]; simp [hc7, hc8, hc9, hc10, hc11, hc12])]
  · intro w sig tStart tEnd cap h
    have hb : w.bucket sig = [] := by
      rw [WaveformIndex.bucket, buildBuckets_not_mem w.transitions sig h]
      rfl
    rw [WaveformIndex.queryTransitions, hb]
    simp
  · intro w sig q h
    exact gvaLoop_sentinel (w.bucket sig) q h _ 0 _
/-- C10 witness: a dump with no timescale declaration keeps "1 ns"; a
line starting with `h` changes nothing; an unknown signal queries empty;
a time before all data yields the sentinel. -/
theorem claim_C10_witness :
    (parseVcd negTimeContent).timescale = "1 ns" ∧
    dataStep [] initData "hello world".data = initData ∧
    exIdx.queryTransitions "nosuch" 0 100 150 = [] ∧
    exIdx.getValueAt "a" (-1) = "x" :=
  ⟨claim_C10.1 negTimeContent (by decide),
   claim_C10.2.1 [] initData "hello world".data (by decide) (by decide),
   claim_C10.2.2.1 exIdx "nosuch" 0 100 150 (by decide),
   claim_C10.2.2.2 exIdx "a" (-1) (by decide)⟩

/-- C2 witness: no markers, reported sim end 500 under the `maxTime`
field, defaults [0, 10000] — the window is [0, 500]. -/
theorem claim_C2_witness :
    resolveRange (some ⟨none, none, none, some 500, none⟩) 0 10000 = (0, 500) := by
  rw [claim_C2.2.2.2 none (some 500) none 0 10000]
  decide

/-- C4 witness: the pair ["0", "1"] is recorded as the formatted first
element. -/
theorem claim_C4_witness :
    collectTransitions (fun _ _ => some [⟨"a", .arr ["0", "1"]⟩]) ["a"] 0 0 1
      = [⟨some 0, "a", sampleFormat "0"⟩] :=
  claim_C4 "0" "1"

/-- C9 witness: on the `$dumpvars` fixture, `a` is cataloged exactly
because its bucket is nonempty. -/
theorem claim_C9_witness :
    "a" ∈ (parseVcd dumpvarsContent).signals ↔
      sigBucket (parseVcd dumpvarsContent).transitions "a" ≠ [] :=
  (claim_C9 dumpvarsContent).2 "a"

end HdlWave
